import Mathlib

/- Shallow embedding of the Battleship game engine found in src/src/App.tsx:
   the 10x10 grid model, fleet placement, attack resolution with sink
   detection, and the three computer targeting strategies (random,
   hunt-target, probability density).  Randomness (Math.random) is modelled
   by an explicit draw parameter: a uniformly random JS draw
   floor(random * n) becomes an arbitrary natural number reduced mod n. -/

namespace Battleship

/- Cell states: EMPTY, SHIP, HIT, MISS, SUNK in the source. -/
inductive Cell where
  | empty
  | ship
  | hit
  | miss
  | sunk
deriving DecidableEq, Repr

/- A board is a total map from (row, col) to cell state; the game only ever
   reads and writes coordinates below BOARD_SIZE. -/
abbrev Board := Nat → Nat → Cell

def BOARD_SIZE : Nat := 10

structure Coordinate where
  row : Nat
  col : Nat
deriving DecidableEq, Repr

structure PlacedShip where
  name : String
  size : Nat
  coords : List Coordinate
  sunk : Bool
deriving DecidableEq, Repr

structure ShipConfig where
  name : String
  size : Nat
  placed : Bool
deriving DecidableEq, Repr

def createEmptyBoard : Board := fun _ _ => Cell.empty

def setCell (b : Board) (r c : Nat) (v : Cell) : Board :=
  fun r0 c0 => if r0 = r ∧ c0 = c then v else b r0 c0

/- canPlaceShip(board, row, col, size, horizontal) from the source, with
   JS array semantics made explicit.  Arguments row and col are integers
   (the claim ranges over negative values).  Per iteration the source
   checks r >= BOARD_SIZE || c >= BOARD_SIZE first; after that check a
   negative r makes board[r] undefined so board[r][c] throws a TypeError
   (modelled as none), while a negative c makes board[r][c] undefined,
   which compares !== EMPTY and returns false. -/
/- The cell visited at loop index i of canPlaceShip / placeShipOnBoard:
   const r = horizontal ? row : row + i, const c = horizontal ? col + i : col. -/
def cellAt (row col : Int) (horizontal : Bool) (i : Nat) : Int × Int :=
  (if horizontal then row else row + i, if horizontal then col + i else col)

def canPlaceFrom (b : Board) (row col : Int) (horizontal : Bool) : Nat → Nat → Option Bool
  | _, 0 => some true
  | i, Nat.succ n =>
    let rc := cellAt row col horizontal i
    if (BOARD_SIZE : Int) ≤ rc.1 ∨ (BOARD_SIZE : Int) ≤ rc.2 then some false
    else if rc.1 < 0 then none
    else if rc.2 < 0 then some false
    else if b rc.1.toNat rc.2.toNat ≠ Cell.empty then some false
    else canPlaceFrom b row col horizontal (i + 1) n

def canPlaceShip (b : Board) (row col : Int) (size : Nat) (horizontal : Bool) : Option Bool :=
  canPlaceFrom b row col horizontal 0 size

/- The condition the specification demands of each of the size consecutive
   cells: within bounds and Empty. -/
def inBoundsEmpty (b : Board) (rc : Int × Int) : Prop :=
  0 ≤ rc.1 ∧ rc.1 < (BOARD_SIZE : Int) ∧ 0 ≤ rc.2 ∧ rc.2 < (BOARD_SIZE : Int) ∧
    b rc.1.toNat rc.2.toNat = Cell.empty

/- placeShipOnBoard from the source: writes SHIP into the size consecutive
   cells and returns the new board together with the coordinate list. -/
def placeShipOnBoard (b : Board) (row col size : Nat) (horizontal : Bool) :
    Board × List Coordinate :=
  let coords := (List.range size).map fun i =>
    if horizontal then Coordinate.mk row (col + i) else Coordinate.mk (row + i) col
  (coords.foldl (fun nb cd => setCell nb cd.row cd.col Cell.ship) b, coords)

/- checkSunk from the source: every coordinate of the ship reads HIT or
   SUNK on the board. -/
def checkSunk (s : PlacedShip) (b : Board) : Bool :=
  s.coords.all fun cd => b cd.row cd.col == Cell.hit || b cd.row cd.col == Cell.sunk

/- markSunk from the source: every coordinate of the ship is overwritten
   with SUNK. -/
def markSunk (b : Board) (s : PlacedShip) : Board :=
  s.coords.foldl (fun nb cd => setCell nb cd.row cd.col Cell.sunk) b

/- One Math.random draw triple per placement attempt: orientation, row,
   col (the source draws row and col in [0, BOARD_SIZE)). -/
abbrev RandStream := Nat → Bool × Nat × Nat

/- randomPlacement from the source.  The source runs an unbounded
   while (!placed) loop per ship; the embedding is step indexed: the last
   argument is the number of loop iterations allowed, k the index of the
   next draw, and none means the loop has not finished within that many
   iterations.  The source has no retry cap of its own. -/
def rpLoop (stream : RandStream) : List ShipConfig → Board → Nat → Nat →
    Option (Board × List PlacedShip)
  | [], b, _, _ => some (b, [])
  | _ :: _, _, _, 0 => none
  | cfg :: rest, b, k, Nat.succ fuel =>
    let draw := stream k
    if canPlaceShip b (draw.2.1 : Int) (draw.2.2 : Int) cfg.size draw.1 = some true then
      let placed := placeShipOnBoard b draw.2.1 draw.2.2 cfg.size draw.1
      match rpLoop stream rest placed.1 (k + 1) fuel with
      | some res => some (res.1, PlacedShip.mk cfg.name cfg.size placed.2 false :: res.2)
      | none => none
    else rpLoop stream (cfg :: rest) b (k + 1) fuel

def randomPlacement (stream : RandStream) (ships : List ShipConfig) (fuel : Nat) :
    Option (Board × List PlacedShip) :=
  rpLoop stream ships createEmptyBoard 0 fuel

/- Draw j of the stream passes canPlaceShip on board b for a ship of the
   given size. -/
def drawFits (stream : RandStream) (b : Board) (size : Nat) (j : Nat) : Prop :=
  canPlaceShip b ((stream j).2.1 : Int) ((stream j).2.2 : Int) size (stream j).1 = some true

/- A cell is a legal attack target when it reads EMPTY or SHIP, the test
   the source repeats at every strategy and guard. -/
def legalCell (b : Board) (r c : Nat) : Bool :=
  b r c == Cell.empty || b r c == Cell.ship

/- The available list each strategy builds: all legal cells in row major
   order. -/
def legalTargets (b : Board) : List Coordinate :=
  (((List.range BOARD_SIZE).flatMap fun r =>
      (List.range BOARD_SIZE).map fun c => Coordinate.mk r c).filter
    fun cd => legalCell b cd.row cd.col)

/- computerTurnEasy from the source: a uniform pick over the legal cells
   (none when the board offers no legal target). -/
def computerTurnEasy (b : Board) (rand : Nat) : Option Coordinate :=
  let avail := legalTargets b
  avail.get? (rand % avail.length)

/- The while(queue.length) loop of computerTurnMedium: shift candidates
   until one is a legal target, dropping the illegal ones. -/
def popLegal (b : Board) : List Coordinate → Option (Coordinate × List Coordinate)
  | [] => none
  | cand :: rest =>
    if legalCell b cand.row cand.col then some (cand, rest) else popLegal b rest

/- computerTurnMedium from the source, returning the chosen target and the
   remaining queue (the hits list passes through unchanged in the source
   and is omitted).  When the queue yields no legal candidate it has been
   fully drained and the strategy falls back to a uniform pick over the
   legal cells. -/
def computerTurnMedium (b : Board) (queue : List Coordinate) (rand : Nat) :
    Option (Coordinate × List Coordinate) :=
  match popLegal b queue with
  | some tq => some tq
  | none =>
    let avail := legalTargets b
    match avail.get? (rand % avail.length) with
    | some t => some (t, [])
    | none => none

/- A probability accumulator, indexed like a board. -/
abbrev ProbMap := Nat → Nat → Nat

/- The candidate placement cells visited by the inner loop of
   computeProbabilityMap for anchor (r, c), the given ship size and
   orientation. -/
def placementCells (r c size : Nat) (horizontal : Bool) : List Coordinate :=
  (List.range size).map fun i =>
    if horizontal then Coordinate.mk r (c + i) else Coordinate.mk (r + i) c

/- The consistency test of computeProbabilityMap: every cell of the
   candidate placement is in bounds and is neither MISS nor SUNK. -/
def placementValid (b : Board) (r c size : Nat) (horizontal : Bool) : Bool :=
  (placementCells r c size horizontal).all fun cd =>
    decide (cd.row < BOARD_SIZE) && decide (cd.col < BOARD_SIZE) &&
      !(b cd.row cd.col == Cell.miss) && !(b cd.row cd.col == Cell.sunk)

/- prob[coord.row][coord.col] += weight for one coordinate. -/
def probBump (pm : ProbMap) (cd : Coordinate) (w : Nat) : ProbMap :=
  fun r c => if r = cd.row ∧ c = cd.col then pm r c + w else pm r c

/- One iteration of the position/orientation loops of
   computeProbabilityMap: when the candidate placement is consistent, add
   weight 20 (if it runs through a HIT cell) or 1 to the accumulator of
   each of its cells that currently reads EMPTY or SHIP. -/
def addPlacement (b : Board) (size : Nat) (pm : ProbMap) (r c : Nat) (horizontal : Bool) :
    ProbMap :=
  if placementValid b r c size horizontal then
    let cells := placementCells r c size horizontal
    let w := if cells.any (fun cd => b cd.row cd.col == Cell.hit) then 20 else 1
    cells.foldl (fun m cd => if legalCell b cd.row cd.col then probBump m cd w else m) pm
  else pm

/- computeProbabilityMap from the source: iterate over the surviving
   (not sunk) ships, all anchors and both orientations. -/
def computeProbabilityMap (b : Board) (ships : List PlacedShip) : ProbMap :=
  (ships.filter fun s => !s.sunk).foldl
    (fun pm s =>
      (List.range BOARD_SIZE).foldl
        (fun pm r =>
          (List.range BOARD_SIZE).foldl
            (fun pm c =>
              [true, false].foldl (fun pm horizontal => addPlacement b s.size pm r c horizontal)
                pm)
            pm)
        pm)
    (fun _ _ => 0)

/- One candidate placement descriptor: ship size, anchor, orientation. -/
structure PlacePos where
  size : Nat
  r : Nat
  c : Nat
  horizontal : Bool
deriving DecidableEq, Repr

/- The flattened iteration domain of computeProbabilityMap: surviving ship
   sizes, every anchor, both orientations, in loop order. -/
def probPlacements (ships : List PlacedShip) : List PlacePos :=
  (ships.filter fun s => !s.sunk).flatMap fun s =>
    (List.range BOARD_SIZE).flatMap fun r =>
      (List.range BOARD_SIZE).flatMap fun c =>
        [true, false].map fun horizontal => PlacePos.mk s.size r c horizontal

/- The contribution one candidate placement makes to the accumulator of
   cell (r, c) in the source: its weight when the placement is consistent,
   covers the cell and the cell is a legal target, and 0 otherwise. -/
def probContrib (b : Board) (p : PlacePos) (r c : Nat) : Nat :=
  if placementValid b p.r p.c p.size p.horizontal ∧
      Coordinate.mk r c ∈ placementCells p.r p.c p.size p.horizontal ∧
      legalCell b r c = true then
    (if (placementCells p.r p.c p.size p.horizontal).any
        (fun cd => b cd.row cd.col == Cell.hit) then 20 else 1)
  else 0

/- The accumulator the specification text describes: every consistent
   placement adds its weight (20 with a HIT cell aboard, else 1) to each
   of its cells, with no further condition on the receiving cell.  This is
   the spec side definition used to compare against computeProbabilityMap,
   written from the words of the spec. -/
def specWeight (b : Board) (ships : List PlacedShip) (r c : Nat) : Nat :=
  ((probPlacements ships).map fun p =>
    if placementValid b p.r p.c p.size p.horizontal ∧
        Coordinate.mk r c ∈ placementCells p.r p.c p.size p.horizontal then
      (if (placementCells p.r p.c p.size p.horizontal).any
          (fun cd => b cd.row cd.col == Cell.hit) then 20 else 1)
    else 0).sum

/- The claim C4 spec side predicate, written from the words of the spec:
   some surviving ship length admits a placement through cell (r, c) whose
   cells all lie on the board and avoid every MISS and SUNK cell. -/
def specAdmitsPlacement (b : Board) (ships : List PlacedShip) (r c : Nat) : Prop :=
  ∃ s ∈ ships, s.sunk = false ∧ ∃ r0 c0 : Nat, ∃ horizontal : Bool,
    (∀ cd ∈ placementCells r0 c0 s.size horizontal,
      cd.row < BOARD_SIZE ∧ cd.col < BOARD_SIZE ∧
        b cd.row cd.col ≠ Cell.miss ∧ b cd.row cd.col ≠ Cell.sunk) ∧
    Coordinate.mk r c ∈ placementCells r0 c0 s.size horizontal

/- computerTurnHard from the source: compute the probability map, scan the
   legal cells in row major order keeping the running maximum (started at
   -1) and the list of cells attaining it, then pick uniformly among those
   candidates. -/
/- One step of the maxProb/candidates scan of computerTurnHard: a new
   strict maximum resets the candidate list, an equal value appends. -/
def hardScanStep (probMap : ProbMap) (acc : Int × List Coordinate) (t : Coordinate) :
    Int × List Coordinate :=
  if acc.1 < (probMap t.row t.col : Int) then ((probMap t.row t.col : Int), [t])
  else if (probMap t.row t.col : Int) = acc.1 then (acc.1, acc.2 ++ [t])
  else acc

/- The running maximum of the scan, started at -1. -/
def hardMax (probMap : ProbMap) (acc : Int) (t : Coordinate) : Int :=
  max acc (probMap t.row t.col : Int)

def computerTurnHard (b : Board) (ships : List PlacedShip) (rand : Nat) : Option Coordinate :=
  let probMap := computeProbabilityMap b ships
  let scan := (legalTargets b).foldl (hardScanStep probMap) ((-1 : Int), ([] : List Coordinate))
  scan.2.get? (rand % scan.2.length)

/- The ship scanning pass shared by the attack resolvers: walk the fleet
   in order; each not yet sunk ship whose coordinates all read HIT or SUNK
   on the current board has its coordinates overwritten with SUNK and its
   flag set, and later ships are checked against the updated board (the
   source mutates newBoard inside the map callback). -/
def sinkPassA : List PlacedShip → Board → List PlacedShip × Board
  | [], b => ([], b)
  | s :: rest, b =>
    if !s.sunk && checkSunk s b then
      let b1 := markSunk b s
      let res := sinkPassA rest b1
      ({ s with sunk := true } :: res.1, res.2)
    else
      let res := sinkPassA rest b
      (s :: res.1, res.2)

/- The grid and fleet effect of one resolved attack (the board logic of
   computerTurn, identical to the actual board logic of handleAttack): a
   SHIP cell becomes HIT and the sink pass runs, any other cell becomes
   MISS. -/
def resolveAttack (b : Board) (ships : List PlacedShip) (t : Coordinate) :
    Board × List PlacedShip :=
  if b t.row t.col = Cell.ship then
    let b1 := setCell b t.row t.col Cell.hit
    let res := sinkPassA ships b1
    (res.2, res.1)
  else
    (setCell b t.row t.col Cell.miss, ships)

/- The sink pass of handleAttack, threading both the visible tracking
   board and the actual board; sinking is checked against the actual
   board and both boards receive the SUNK marks. -/
def sinkPass2 : List PlacedShip → Board → Board → List PlacedShip × Board × Board
  | [], v, a => ([], v, a)
  | s :: rest, v, a =>
    if !s.sunk && checkSunk s a then
      let v1 := markSunk v s
      let a1 := markSunk a s
      let res := sinkPass2 rest v1 a1
      ({ s with sunk := true } :: res.1, res.2)
    else
      let res := sinkPass2 rest v a
      (s :: res.1, res.2)

inductive GamePhase where
  | difficulty
  | placement
  | battle
  | gameover
deriving DecidableEq, Repr

inductive Winner where
  | player
  | computer
deriving DecidableEq, Repr

/- The two silent early returns of handleAttack, given the error names the
   specification assigns them. -/
inductive AttackError where
  | wrongPhase
  | cellAlreadyAttacked
deriving DecidableEq, Repr

/- The game state touched by handleAttack. -/
structure GameState where
  gamePhase : GamePhase
  playerTurn : Bool
  computerVisibleBoard : Board
  computerBoard : Board
  computerShips : List PlacedShip
  playerShotCount : Nat
  winner : Option Winner

/- handleAttack from the source (sound, message and timer effects
   omitted).  A rejected attack returns the state unchanged together with
   the error; an accepted attack increments the shot counter, records the
   outcome on the visible board, records hits on the actual board, runs
   the sink pass of both boards, and ends the game when every ship is
   sunk.  On a miss only the visible board changes. -/
def handleAttack (st : GameState) (row col : Nat) : GameState × Option AttackError :=
  if st.gamePhase ≠ GamePhase.battle ∨ st.playerTurn = false then
    (st, some AttackError.wrongPhase)
  else if st.computerVisibleBoard row col ≠ Cell.empty then
    (st, some AttackError.cellAlreadyAttacked)
  else
    let shots := st.playerShotCount + 1
    if st.computerBoard row col = Cell.ship then
      let v1 := setCell st.computerVisibleBoard row col Cell.hit
      let a1 := setCell st.computerBoard row col Cell.hit
      let res := sinkPass2 st.computerShips v1 a1
      if res.1.all (fun s => s.sunk) then
        ({ st with
            computerVisibleBoard := res.2.1
            computerBoard := res.2.2
            computerShips := res.1
            playerShotCount := shots
            winner := some Winner.player
            gamePhase := GamePhase.gameover }, none)
      else
        ({ st with
            computerVisibleBoard := res.2.1
            computerBoard := res.2.2
            computerShips := res.1
            playerShotCount := shots }, none)
    else
      ({ st with
          computerVisibleBoard := setCell st.computerVisibleBoard row col Cell.miss
          playerShotCount := shots }, none)

/- No two ships of the fleet share a coordinate (the fleet invariant of
   the data model). -/
abbrev ShipsDisjoint (ships : List PlacedShip) : Prop :=
  List.Pairwise (fun s1 s2 => ∀ cd ∈ s1.coords, cd ∉ s2.coords) ships

/- The conclusion of claim C1 about one resolved attack: the fleet keeps
   its length, a not yet sunk ship is newly flagged sunk exactly when all
   its coordinates read HIT or SUNK on the updated board, and a newly
   flagged ship has all its coordinates set to SUNK. -/
def sinkReport (b : Board) (ships : List PlacedShip) (t : Coordinate) : Prop :=
  (resolveAttack b ships t).2.length = ships.length ∧
  ∀ i : Nat, ∀ s s2 : PlacedShip,
    ships.get? i = some s → (resolveAttack b ships t).2.get? i = some s2 →
    s.sunk = false →
    ((s2.sunk = true) ↔
      ∀ cd ∈ s.coords,
        (resolveAttack b ships t).1 cd.row cd.col = Cell.hit ∨
          (resolveAttack b ships t).1 cd.row cd.col = Cell.sunk) ∧
    ((s2.sunk = true) →
      ∀ cd ∈ s.coords, (resolveAttack b ships t).1 cd.row cd.col = Cell.sunk)

/- The single step cell transitions the data model invariant allows
   (besides a full reset). -/
def cellStep (a b : Cell) : Prop :=
  (a = Cell.empty ∧ b = Cell.ship) ∨ (a = Cell.ship ∧ b = Cell.hit) ∨
    (a = Cell.empty ∧ b = Cell.miss) ∨ (a = Cell.hit ∧ b = Cell.sunk)

/- A cell value evolves along zero or more allowed transitions. -/
def cellEvolves (a b : Cell) : Prop := Relation.ReflTransGen cellStep a b

/- Conclusion of claim C8 for a guarded placement. -/
def placementSteps (b : Board) (row col size : Nat) (horizontal : Bool) : Prop :=
  ∀ r c : Nat, cellEvolves (b r c) ((placeShipOnBoard b row col size horizontal).1 r c)

/- Conclusion of claim C8 for a resolved attack. -/
def attackSteps (b : Board) (ships : List PlacedShip) (t : Coordinate) : Prop :=
  ∀ r c : Nat, cellEvolves (b r c) ((resolveAttack b ships t).1 r c)

/- Conclusion of claim C8 on terminal cells: MISS and SUNK cells survive a
   resolved attack unchanged. -/
def terminalCells (b : Board) (ships : List PlacedShip) (t : Coordinate) : Prop :=
  (∀ r c : Nat, b r c = Cell.miss → (resolveAttack b ships t).1 r c = Cell.miss) ∧
  (∀ r c : Nat, b r c = Cell.sunk → (resolveAttack b ships t).1 r c = Cell.sunk)

/- Conclusion of claim C3: the hunt-target strategy returns a target that
   is still a legal cell (so never HIT, MISS or SUNK), obtained by popping
   the queue in FIFO order until the first legal candidate, with the
   remaining queue returned; when the queue holds no legal candidate the
   queue is drained and the target is one of the legal cells. -/
def mediumSelects (b : Board) (queue : List Coordinate) (rand : Nat) : Prop :=
  ∃ t : Coordinate, ∃ q2 : List Coordinate,
    computerTurnMedium b queue rand = some (t, q2) ∧
    legalCell b t.row t.col = true ∧
    b t.row t.col ≠ Cell.hit ∧ b t.row t.col ≠ Cell.miss ∧ b t.row t.col ≠ Cell.sunk ∧
    (match queue.dropWhile (fun cd => !legalCell b cd.row cd.col) with
     | c :: rest => t = c ∧ q2 = rest
     | [] => t ∈ legalTargets b ∧ q2 = [])

/- Conclusion of claim C5: the probability density strategy returns a
   legal cell whose spec side accumulated weight is maximal among legal
   cells, and the pick indexes uniformly into the row major list of all
   legal cells sharing that maximum. -/
def hardSelects (b : Board) (ships : List PlacedShip) (rand : Nat) : Prop :=
  ∃ t : Coordinate,
    computerTurnHard b ships rand = some t ∧
    legalCell b t.row t.col = true ∧
    (∀ u ∈ legalTargets b,
      specWeight b ships u.row u.col ≤ specWeight b ships t.row t.col) ∧
    (((legalTargets b).filter fun u =>
        specWeight b ships u.row u.col = specWeight b ships t.row t.col).get?
      (rand % ((legalTargets b).filter fun u =>
        specWeight b ships u.row u.col = specWeight b ships t.row t.col).length) = some t)

/- Two defender boards that agree on every resolved (HIT, MISS, SUNK)
   cell and may swap unresolved SHIP cells with EMPTY cells. -/
def obsEquiv (b1 b2 : Board) : Prop :=
  ∀ r c : Nat, b1 r c = b2 r c ∨
    ((b1 r c = Cell.empty ∨ b1 r c = Cell.ship) ∧ (b2 r c = Cell.empty ∨ b2 r c = Cell.ship))

/- Conclusion of claim C10: a human attack that misses only writes MISS to
   the visible tracking board and bumps the shot counter, and on a hit the
   updated ship list is a function of the actual board alone (sinking is
   detected against the actual board, where the hit was recorded). -/
def missFrame (st : GameState) (row col : Nat) : Prop :=
  (st.computerBoard row col ≠ Cell.ship →
    handleAttack st row col =
      ({ st with
          computerVisibleBoard := setCell st.computerVisibleBoard row col Cell.miss
          playerShotCount := st.playerShotCount + 1 }, none)) ∧
  (st.computerBoard row col = Cell.ship →
    (handleAttack st row col).1.computerShips =
      (sinkPassA st.computerShips (setCell st.computerBoard row col Cell.hit)).1 ∧
    (handleAttack st row col).1.computerBoard =
      (sinkPassA st.computerShips (setCell st.computerBoard row col Cell.hit)).2)

/- Concrete inputs used by the witness and counterexample theorems. -/

def bJustHit : Board := fun r c => if r = 0 ∧ c = 0 then Cell.hit else Cell.empty

def shipsOneDestroyer : List PlacedShip :=
  [PlacedShip.mk "Destroyer" 2 [Coordinate.mk 9 8, Coordinate.mk 9 9] false]

def bAlmostSunk : Board := fun r c =>
  if r = 0 ∧ c = 0 then Cell.ship else if r = 0 ∧ c = 1 then Cell.hit else Cell.empty

def shipsAlmostSunk : List PlacedShip :=
  [PlacedShip.mk "Destroyer" 2 [Coordinate.mk 0 0, Coordinate.mk 0 1] false]

def bOneShip : Board := fun r c => if r = 0 ∧ c = 0 then Cell.ship else Cell.empty

def bAllEmpty : Board := fun _ _ => Cell.empty

def constStream : RandStream := fun _ => (true, 0, 0)

def giantShipList : List ShipConfig := [ShipConfig.mk "Leviathan" 11 false]

def stBattle : GameState where
  gamePhase := GamePhase.battle
  playerTurn := true
  computerVisibleBoard := bJustHit
  computerBoard := bOneShip
  computerShips := shipsOneDestroyer
  playerShotCount := 3
  winner := none

/- Characterization of the canPlaceShip loop, generalized over the start
   index. -/
theorem canPlaceFrom_some_true_iff (b : Board) (row col : Int) (horizontal : Bool) :
    ∀ n i, canPlaceFrom b row col horizontal i n = some true ↔
      ∀ j, j < n → inBoundsEmpty b (cellAt row col horizontal (i + j)) := by
  intro n
  induction n with
  | zero => intro i; simp [canPlaceFrom]
  | succ n ih =>
    intro i
    simp only [canPlaceFrom]
    split_ifs with h1 h2 h3 h4
    · apply iff_of_false (by simp)
      intro hall
      have h0 := hall 0 (Nat.succ_pos n)
      rw [Nat.add_zero] at h0
      obtain ⟨hr0, hr1, hc0, hc1, hcell⟩ := h0
      rcases h1 with h1 | h1
      · exact absurd hr1 (not_lt.mpr h1)
      · exact absurd hc1 (not_lt.mpr h1)
    · apply iff_of_false (by simp)
      intro hall
      have h0 := hall 0 (Nat.succ_pos n)
      rw [Nat.add_zero] at h0
      exact absurd h0.1 (not_le.mpr h2)
    · apply iff_of_false (by simp)
      intro hall
      have h0 := hall 0 (Nat.succ_pos n)
      rw [Nat.add_zero] at h0
      exact absurd h0.2.2.1 (not_le.mpr h3)
    · apply iff_of_false (by simp)
      intro hall
      have h0 := hall 0 (Nat.succ_pos n)
      rw [Nat.add_zero] at h0
      exact h4 h0.2.2.2.2
    · rw [ih (i + 1)]
      push_neg at h1
      constructor
      · intro h j hj
        match j with
        | 0 =>
          rw [Nat.add_zero]
          exact ⟨not_lt.mp h2, h1.1, not_lt.mp h3, h1.2, not_ne_iff.mp h4⟩
        | Nat.succ j =>
          have hj2 : j < n := by omega
          have := h j hj2
          rw [(by omega : i + 1 + j = i + (j + 1))] at this
          exact this
      · intro h j hj
        have := h (j + 1) (by omega)
        rw [(by omega : i + (j + 1) = i + 1 + j)] at this
        exact this

/- Same characterization at start index 0, phrased per cell index. -/
theorem canPlaceShip_some_true_iff (b : Board) (row col : Int) (size : Nat) (horizontal : Bool) :
    canPlaceShip b row col size horizontal = some true ↔
      ∀ i, i < size → inBoundsEmpty b (cellAt row col horizontal i) := by
  rw [canPlaceShip, canPlaceFrom_some_true_iff]
  constructor
  · intro h i hi
    have := h i hi
    rwa [Nat.zero_add] at this
  · intro h j hj
    rw [Nat.zero_add]
    exact h j hj

/-- Claim C6: for every grid, every integer coordinate (negative values
included), every length and both orientations, canPlaceShip returns true
exactly when all length consecutive cells starting at the coordinate along
the given axis lie within the grid bounds and are Empty (a crash of the JS
array access is modelled as none and in particular is not some true). -/
theorem claim_C6 (b : Board) (row col : Int) (size : Nat) (horizontal : Bool) :
    canPlaceShip b row col size horizontal = some true ↔
      ∀ i, i < size → inBoundsEmpty b (cellAt row col horizontal i) :=
  canPlaceShip_some_true_iff b row col size horizontal

/- The ship list produced by the two board sink pass equals the one
   produced by the actual board alone: sinking never consults the visible
   board. -/
theorem sinkPass2_fst (ships : List PlacedShip) :
    ∀ v a, (sinkPass2 ships v a).1 = (sinkPassA ships a).1 := by
  induction ships with
  | nil => intro v a; rfl
  | cons s rest ih =>
    intro v a
    simp only [sinkPass2, sinkPassA]
    split_ifs with h
    · simp [ih]
    · simp [ih]

/- Likewise the resulting actual board ignores the visible board. -/
theorem sinkPass2_actual (ships : List PlacedShip) :
    ∀ v a, (sinkPass2 ships v a).2.2 = (sinkPassA ships a).2 := by
  induction ships with
  | nil => intro v a; rfl
  | cons s rest ih =>
    intro v a
    simp only [sinkPass2, sinkPassA]
    split_ifs with h
    · simp [ih]
    · simp [ih]

/-- Claim C2: in the Battle phase on the attacker's turn, an attack aimed
at a cell already resolved to Hit, Miss or Sunk is rejected with
CellAlreadyAttacked, and the whole game state (boards, ships, shot
counter) is returned unchanged. -/
theorem claim_C2 (st : GameState) (row col : Nat)
    (hphase : st.gamePhase = GamePhase.battle) (hturn : st.playerTurn = true)
    (hcell : st.computerVisibleBoard row col = Cell.hit ∨
      st.computerVisibleBoard row col = Cell.miss ∨
      st.computerVisibleBoard row col = Cell.sunk) :
    handleAttack st row col = (st, some AttackError.cellAlreadyAttacked) := by
  rcases hcell with h | h | h <;> simp [handleAttack, hphase, hturn, h]

/-- Witness for claim C2 at a concrete state whose visible board already
shows a Hit at the target. -/
theorem claim_C2_witness :
    (stBattle.gamePhase = GamePhase.battle ∧ stBattle.playerTurn = true ∧
      stBattle.computerVisibleBoard 0 0 = Cell.hit) ∧
    handleAttack stBattle 0 0 = (stBattle, some AttackError.cellAlreadyAttacked) :=
  ⟨⟨rfl, rfl, rfl⟩, claim_C2 stBattle 0 0 rfl rfl (Or.inl rfl)⟩

/-- Claim C10: an accepted human attack that misses only writes Miss into
the visible tracking board and increments the shot counter, leaving the
actual board and the ship list untouched; and on a hit the updated ship
list and actual board are computed from the actual board alone, on which
the hit was recorded. -/
theorem claim_C10 (st : GameState) (row col : Nat)
    (hphase : st.gamePhase = GamePhase.battle) (hturn : st.playerTurn = true)
    (hvis : st.computerVisibleBoard row col = Cell.empty) :
    missFrame st row col := by
  constructor
  · intro hmiss
    simp [handleAttack, missFrame, hphase, hturn, hvis, hmiss]
  · intro hhit
    have hg : ¬(st.gamePhase ≠ GamePhase.battle ∨ st.playerTurn = false) := by
      rw [hphase, hturn]; simp
    have hv : ¬(st.computerVisibleBoard row col ≠ Cell.empty) := by rw [hvis]; simp
    simp only [handleAttack, if_neg hg, if_neg hv, if_pos hhit]
    split_ifs with hall <;> simp [sinkPass2_fst, sinkPass2_actual]

/-- Witness for claim C10 at a concrete state attacking an empty cell of
the actual board. -/
theorem claim_C10_witness :
    (stBattle.gamePhase = GamePhase.battle ∧ stBattle.playerTurn = true ∧
      stBattle.computerVisibleBoard 5 5 = Cell.empty) ∧
    missFrame stBattle 5 5 :=
  ⟨⟨rfl, rfl, rfl⟩, claim_C10 stBattle 5 5 rfl rfl rfl⟩

/- The single ship placement loop of randomPlacement is still running
   after a given number of iterations exactly when no draw consumed so far
   fits. -/
theorem rpLoop_single_none_iff (stream : RandStream) (b : Board) (cfg : ShipConfig) :
    ∀ fuel k, rpLoop stream [cfg] b k fuel = none ↔
      ∀ j, j < fuel → ¬ drawFits stream b cfg.size (k + j) := by
  intro fuel
  induction fuel with
  | zero => intro k; simp [rpLoop]
  | succ fuel ih =>
    intro k
    by_cases hfit :
        canPlaceShip b ((stream k).2.1 : Int) ((stream k).2.2 : Int) cfg.size (stream k).1 =
          some true
    · simp only [rpLoop, hfit, if_true]
      apply iff_of_false (by simp [rpLoop])
      intro hall
      exact hall 0 (Nat.succ_pos fuel) (by simpa [drawFits] using hfit)
    · simp only [rpLoop, hfit, if_false]
      rw [ih (k + 1)]
      constructor
      · intro h j hj
        match j with
        | 0 => simpa [drawFits] using hfit
        | Nat.succ j =>
          have := h j (by omega)
          rwa [(by omega : k + 1 + j = k + (j + 1))] at this
      · intro h j hj
        have := h (j + 1) (by omega)
        rwa [(by omega : k + (j + 1) = k + 1 + j)] at this

/-- Claim C7 (amended): randomPlacement has no retry cap and no
PlacementExhausted failure; its rejection sampling loop finishes within
some number of iterations exactly when some sampled draw passes canPlace
on the board it faces (shown for a single ship fleet on the fresh board). -/
theorem claim_C7 (stream : RandStream) (cfg : ShipConfig) :
    (∃ fuel, randomPlacement stream [cfg] fuel ≠ none) ↔
      ∃ j, drawFits stream createEmptyBoard cfg.size j := by
  constructor
  · rintro ⟨fuel, hf⟩
    by_contra hnone
    push_neg at hnone
    apply hf
    rw [randomPlacement]
    exact (rpLoop_single_none_iff stream createEmptyBoard cfg fuel 0).mpr
      (fun j _ => by simpa using hnone j)
  · rintro ⟨j, hj⟩
    refine ⟨j + 1, fun hn => ?_⟩
    rw [randomPlacement] at hn
    have := (rpLoop_single_none_iff stream createEmptyBoard cfg (j + 1) 0).mp hn j (by omega)
    rw [Nat.zero_add] at this
    exact this hj

/- On a fleet whose first ship has length 11 no draw ever fits, so the
   while loop of randomPlacement never exits, whatever the iteration
   budget. -/
/- A ship of length 11 never fits: index 0 and index 10 of the run cannot
   both be inside a board of size 10. -/
theorem giant_draw_unfit (r c : Nat) (hor : Bool) (b : Board) :
    canPlaceShip b (r : Int) (c : Int) 11 hor ≠ some true := by
  intro hsome
  rw [canPlaceShip_some_true_iff] at hsome
  have h0 := hsome 0 (by omega)
  have h10 := hsome 10 (by omega)
  cases hor <;> simp [cellAt, inBoundsEmpty, BOARD_SIZE] at h0 h10 <;> omega

theorem rpLoop_giant_none : ∀ fuel k,
    rpLoop constStream [ShipConfig.mk "Leviathan" 11 false] createEmptyBoard k fuel = none := by
  intro fuel
  induction fuel with
  | zero => intro k; simp [rpLoop]
  | succ fuel ih =>
    intro k
    simp only [rpLoop]
    split
    case isTrue hfit =>
      exact absurd hfit (giant_draw_unfit (constStream k).2.1 (constStream k).2.2
        (constStream k).1 createEmptyBoard)
    case isFalse hfit => exact ih (k + 1)

/-- Counterexample to claim C7 as stated: on the concrete one ship fleet
of length 11 the random placement never terminates: for every iteration
budget it is still running (none), so the source neither caps the number
of attempts nor fails with PlacementExhausted. -/
theorem claim_C7_cx :
    (fun fuel => randomPlacement constStream giantShipList fuel) = fun _ => none := by
  funext fuel
  rw [randomPlacement]
  exact rpLoop_giant_none fuel 0

/- Pointwise description of writing one cell value over a coordinate
   list. -/
theorem foldl_setCell_apply (v : Cell) :
    ∀ (l : List Coordinate) (b : Board) (r c : Nat),
      (l.foldl (fun nb cd => setCell nb cd.row cd.col v) b) r c =
        if Coordinate.mk r c ∈ l then v else b r c := by
  intro l
  induction l with
  | nil => intro b r c; simp
  | cons cd rest ih =>
    obtain ⟨cr, cc⟩ := cd
    intro b r c
    rw [List.foldl_cons, ih]
    by_cases hmem : Coordinate.mk r c ∈ rest
    · simp [hmem]
    · by_cases heq : r = cr ∧ c = cc
      · obtain ⟨rfl, rfl⟩ := heq
        simp [hmem, setCell]
      · have hne : Coordinate.mk r c ≠ Coordinate.mk cr cc := by
          intro h
          exact heq ⟨congrArg Coordinate.row h, congrArg Coordinate.col h⟩
        simp [hmem, hne, setCell, heq]

theorem markSunk_apply (b : Board) (s : PlacedShip) (r c : Nat) :
    markSunk b s r c = if Coordinate.mk r c ∈ s.coords then Cell.sunk else b r c :=
  foldl_setCell_apply Cell.sunk s.coords b r c

theorem placeShip_fst_apply (b : Board) (row col size : Nat) (horizontal : Bool) (r c : Nat) :
    (placeShipOnBoard b row col size horizontal).1 r c =
      if Coordinate.mk r c ∈ (placeShipOnBoard b row col size horizontal).2 then Cell.ship
      else b r c :=
  foldl_setCell_apply Cell.ship _ b r c

theorem checkSunk_true_iff (s : PlacedShip) (b : Board) :
    checkSunk s b = true ↔
      ∀ cd ∈ s.coords, b cd.row cd.col = Cell.hit ∨ b cd.row cd.col = Cell.sunk := by
  simp [checkSunk, List.all_eq_true]

/- Boolean all over a list only depends on the predicate values on the
   members. -/
theorem allCongr {α : Type} (l : List α) (p q : α → Bool) (h : ∀ x ∈ l, p x = q x) :
    l.all p = l.all q := by
  induction l with
  | nil => rfl
  | cons a rest ih =>
    simp only [List.all_cons]
    rw [h a (List.mem_cons_self a rest), ih fun x hx => h x (List.mem_cons_of_mem a hx)]

theorem checkSunk_congr (s : PlacedShip) (b1 b2 : Board)
    (h : ∀ cd ∈ s.coords, b1 cd.row cd.col = b2 cd.row cd.col) :
    checkSunk s b1 = checkSunk s b2 := by
  unfold checkSunk
  exact allCongr s.coords _ _ fun cd hcd => by rw [h cd hcd]

/- Marking one ship sunk does not change the sink check of a ship with
   disjoint coordinates. -/
theorem checkSunk_markSunk_of_disjoint (b : Board) (s s' : PlacedShip)
    (h : ∀ cd ∈ s'.coords, cd ∉ s.coords) :
    checkSunk s' (markSunk b s) = checkSunk s' b := by
  apply checkSunk_congr
  intro cd hcd
  rw [markSunk_apply]
  exact if_neg (h cd hcd)

theorem legalCell_iff (b : Board) (r c : Nat) :
    legalCell b r c = true ↔ b r c = Cell.empty ∨ b r c = Cell.ship := by
  simp [legalCell]

/- The ship list after the sink pass, with every sink check expressed
   against the board the pass started from; this requires the fleet
   disjointness invariant since a marked ship must not disturb the check
   of a later one. -/
theorem sinkPassA_fst_map (ships : List PlacedShip) :
    ∀ b : Board, ShipsDisjoint ships →
      (sinkPassA ships b).1 =
        ships.map fun s => if !s.sunk && checkSunk s b then { s with sunk := true } else s := by
  induction ships with
  | nil => intro b _; rfl
  | cons s rest ih =>
    intro b hd
    have hdrest : ShipsDisjoint rest := (List.pairwise_cons.mp hd).2
    have hdisj : ∀ s' ∈ rest, ∀ cd ∈ s'.coords, cd ∉ s.coords := by
      intro s' hs' cd hcd hcds
      exact (List.pairwise_cons.mp hd).1 s' hs' cd hcds hcd
    have hcheckeq : ∀ s' ∈ rest, checkSunk s' (markSunk b s) = checkSunk s' b :=
      fun s' hs' => checkSunk_markSunk_of_disjoint b s s' (hdisj s' hs')
    simp only [sinkPassA, List.map_cons]
    split_ifs with hcond
    · dsimp only
      rw [ih (markSunk b s) hdrest]
      congr 1
      apply List.map_congr_left
      intro s' hs'
      rw [hcheckeq s' hs']
    · dsimp only
      rw [ih b hdrest]

/- The board after the sink pass: a cell covered by a ship the pass marks
   reads SUNK, any other cell is untouched. -/
theorem sinkPassA_snd_apply (ships : List PlacedShip) :
    ∀ b : Board, ShipsDisjoint ships → ∀ r c : Nat,
      ((∃ s ∈ ships, (!s.sunk && checkSunk s b) = true ∧ Coordinate.mk r c ∈ s.coords) →
        (sinkPassA ships b).2 r c = Cell.sunk) ∧
      ((¬ ∃ s ∈ ships, (!s.sunk && checkSunk s b) = true ∧ Coordinate.mk r c ∈ s.coords) →
        (sinkPassA ships b).2 r c = b r c) := by
  induction ships with
  | nil =>
    intro b _ r c
    constructor
    · rintro ⟨s, hs, -⟩
      exact absurd hs (List.not_mem_nil s)
    · intro _; rfl
  | cons s rest ih =>
    intro b hd r c
    have hdrest : ShipsDisjoint rest := (List.pairwise_cons.mp hd).2
    have hdisj : ∀ s' ∈ rest, ∀ cd ∈ s'.coords, cd ∉ s.coords := by
      intro s' hs' cd hcd hcds
      exact (List.pairwise_cons.mp hd).1 s' hs' cd hcds hcd
    have hcheckeq : ∀ s' ∈ rest, checkSunk s' (markSunk b s) = checkSunk s' b :=
      fun s' hs' => checkSunk_markSunk_of_disjoint b s s' (hdisj s' hs')
    simp only [sinkPassA]
    split_ifs with hcond
    · have ihm := ih (markSunk b s) hdrest r c
      constructor
      · rintro ⟨s', hs', hc', hmem'⟩
        rcases List.mem_cons.mp hs' with rfl | hs'rest
        · by_cases hrest : ∃ t ∈ rest,
              (!t.sunk && checkSunk t (markSunk b s')) = true ∧ Coordinate.mk r c ∈ t.coords
          · exact ihm.1 hrest
          · rw [ihm.2 hrest, markSunk_apply]
            exact if_pos hmem'
        · refine ihm.1 ⟨s', hs'rest, ?_, hmem'⟩
          rw [hcheckeq s' hs'rest]
          exact hc'
      · intro hnone
        have hnots : Coordinate.mk r c ∉ s.coords := fun hmem =>
          hnone ⟨s, List.mem_cons_self s rest, hcond, hmem⟩
        have hnorest : ¬ ∃ t ∈ rest,
            (!t.sunk && checkSunk t (markSunk b s)) = true ∧ Coordinate.mk r c ∈ t.coords := by
          rintro ⟨t, ht, hct, hmt⟩
          rw [hcheckeq t ht] at hct
          exact hnone ⟨t, List.mem_cons_of_mem s ht, hct, hmt⟩
        rw [ihm.2 hnorest, markSunk_apply]
        exact if_neg hnots
    · have ihb := ih b hdrest r c
      constructor
      · rintro ⟨s', hs', hc', hmem'⟩
        rcases List.mem_cons.mp hs' with rfl | hs'rest
        · exact absurd hc' hcond
        · exact ihb.1 ⟨s', hs'rest, hc', hmem'⟩
      · intro hnone
        apply ihb.2
        rintro ⟨t, ht, hct, hmt⟩
        exact hnone ⟨t, List.mem_cons_of_mem s ht, hct, hmt⟩

theorem sinkPassA_length (ships : List PlacedShip) :
    ∀ b : Board, (sinkPassA ships b).1.length = ships.length := by
  induction ships with
  | nil => intro b; rfl
  | cons s rest ih =>
    intro b
    simp only [sinkPassA]
    split_ifs with hcond <;> simp [ih]

/- With pairwise disjoint ships, a coordinate of the ship stored at index
   i belongs to no other member of the fleet. -/
theorem owner_eq (ships : List PlacedShip) (hd : ShipsDisjoint ships) (i : Nat)
    (s : PlacedShip) (hi : ships.get? i = some s) (s' : PlacedShip) (hs' : s' ∈ ships)
    (cd : Coordinate) (h1 : cd ∈ s.coords) (h2 : cd ∈ s'.coords) : s' = s := by
  obtain ⟨⟨n, hn⟩, hget⟩ := List.mem_iff_get.mp hs'
  obtain ⟨hlen, hvi⟩ := List.get?_eq_some.mp hi
  rcases lt_trichotomy n i with hlt | heq | hgt
  · have hR := List.pairwise_iff_get.mp hd ⟨n, hn⟩ ⟨i, hlen⟩ hlt
    rw [hget, hvi] at hR
    exact absurd h1 (hR cd h2)
  · subst heq
    rw [← hget, ← hvi]
  · have hR := List.pairwise_iff_get.mp hd ⟨i, hlen⟩ ⟨n, hn⟩ hgt
    rw [hget, hvi] at hR
    exact absurd h2 (hR cd h1)

/-- Claim C1: under the fleet invariants (pairwise disjoint ships; a
not yet sunk ship has some coordinate not yet Hit or Sunk), after an
attack is resolved a not yet sunk ship is newly flagged sunk exactly when
every one of its coordinates reads Hit or Sunk on the updated grid, and a
newly flagged ship has every coordinate (including previously Hit ones)
set to Sunk. -/
theorem claim_C1 (b : Board) (ships : List PlacedShip) (t : Coordinate)
    (hd : ShipsDisjoint ships)
    (hinv : ∀ s ∈ ships, s.sunk = false →
      ∃ cd ∈ s.coords, b cd.row cd.col ≠ Cell.hit ∧ b cd.row cd.col ≠ Cell.sunk) :
    sinkReport b ships t := by
  unfold sinkReport
  by_cases hship : b t.row t.col = Cell.ship
  · have hra : resolveAttack b ships t =
        ((sinkPassA ships (setCell b t.row t.col Cell.hit)).2,
          (sinkPassA ships (setCell b t.row t.col Cell.hit)).1) := by
      simp [resolveAttack, hship]
    rw [hra]
    dsimp only
    set b1 := setCell b t.row t.col Cell.hit with hb1
    refine ⟨by rw [sinkPassA_length], ?_⟩
    intro i s s2 hgs hgs2 hsunk
    have hmem : s ∈ ships := List.get?_mem hgs
    rw [sinkPassA_fst_map ships b1 hd, List.get?_map, hgs] at hgs2
    have hs2 : s2 = if !s.sunk && checkSunk s b1 then { s with sunk := true } else s :=
      (Option.some.inj hgs2).symm
    rw [hsunk] at hs2
    simp only [Bool.not_false, Bool.true_and] at hs2
    by_cases hcheck : checkSunk s b1 = true
    · rw [hcheck, if_pos rfl] at hs2
      have hsunkall : ∀ cd ∈ s.coords, (sinkPassA ships b1).2 cd.row cd.col = Cell.sunk := by
        intro cd hcd
        refine (sinkPassA_snd_apply ships b1 hd cd.row cd.col).1 ⟨s, hmem, ?_, hcd⟩
        rw [hsunk, hcheck]
        rfl
      refine ⟨?_, fun _ => hsunkall⟩
      constructor
      · intro _ cd hcd
        exact Or.inr (hsunkall cd hcd)
      · intro _
        rw [hs2]
    · rw [if_neg (by simpa using hcheck)] at hs2
      have hnot : ¬ ∀ cd ∈ s.coords, b1 cd.row cd.col = Cell.hit ∨ b1 cd.row cd.col = Cell.sunk :=
        fun hall => hcheck ((checkSunk_true_iff s b1).mpr hall)
      push_neg at hnot
      obtain ⟨cd, hcd, hne⟩ := hnot
      have hfixed : (sinkPassA ships b1).2 cd.row cd.col = b1 cd.row cd.col := by
        refine (sinkPassA_snd_apply ships b1 hd cd.row cd.col).2 ?_
        rintro ⟨s', hs', hc', hm'⟩
        have hseq : s' = s := owner_eq ships hd i s hgs s' hs' (Coordinate.mk cd.row cd.col) hcd hm'
        rw [hseq, hsunk] at hc'
        simp only [Bool.not_false, Bool.true_and] at hc'
        exact hcheck hc'
      refine ⟨?_, ?_⟩
      · apply iff_of_false
        · rw [hs2, hsunk]; simp
        · intro hall
          have := hall cd hcd
          rw [hfixed] at this
          rcases this with h | h
          · exact hne.1 h
          · exact hne.2 h
      · intro habs
        rw [hs2, hsunk] at habs
        cases habs
  · have hra : resolveAttack b ships t = (setCell b t.row t.col Cell.miss, ships) := by
      simp [resolveAttack, hship]
    rw [hra]
    refine ⟨rfl, ?_⟩
    intro i s s2 hgs hgs2 hsunk
    have hmem : s ∈ ships := List.get?_mem hgs
    have hs2 : s2 = s := by
      rw [hgs] at hgs2
      exact (Option.some.inj hgs2).symm
    obtain ⟨cd, hcd, hne1, hne2⟩ := hinv s hmem hsunk
    refine ⟨?_, ?_⟩
    · apply iff_of_false
      · rw [hs2, hsunk]; simp
      · intro hall
        have := hall cd hcd
        simp only [setCell] at this
        by_cases hrc : cd.row = t.row ∧ cd.col = t.col
        · rw [if_pos hrc] at this
          rcases this with h | h <;> cases h
        · rw [if_neg hrc] at this
          rcases this with h | h
          · exact hne1 h
          · exact hne2 h
    · intro habs
      rw [hs2, hsunk] at habs
      cases habs

/-- Witness for claim C1: a two cell destroyer with one cell already Hit
takes the final hit and must come out flagged sunk with both cells Sunk. -/
theorem claim_C1_witness :
    (ShipsDisjoint shipsAlmostSunk ∧
      ∀ s ∈ shipsAlmostSunk, s.sunk = false →
        ∃ cd ∈ s.coords,
          bAlmostSunk cd.row cd.col ≠ Cell.hit ∧ bAlmostSunk cd.row cd.col ≠ Cell.sunk) ∧
    sinkReport bAlmostSunk shipsAlmostSunk (Coordinate.mk 0 0) :=
  ⟨⟨by decide, by decide⟩,
    claim_C1 bAlmostSunk shipsAlmostSunk (Coordinate.mk 0 0) (by decide) (by decide)⟩

/- Every cell write of the sink pass is SUNK over a HIT or SUNK cell, so
   each cell evolves along allowed transitions. -/
theorem sinkPassA_evolves (ships : List PlacedShip) :
    ∀ (b : Board) (r c : Nat), cellEvolves (b r c) ((sinkPassA ships b).2 r c) := by
  induction ships with
  | nil => intro b r c; exact Relation.ReflTransGen.refl
  | cons s rest ih =>
    intro b r c
    simp only [sinkPassA]
    split_ifs with hcond
    · dsimp only
      refine Relation.ReflTransGen.trans ?_ (ih (markSunk b s) r c)
      rw [markSunk_apply]
      by_cases hmem : Coordinate.mk r c ∈ s.coords
      · rw [if_pos hmem]
        have hcond2 : (!s.sunk) = true ∧ checkSunk s b = true := by simpa using hcond
        have hv := (checkSunk_true_iff s b).mp hcond2.2 (Coordinate.mk r c) hmem
        dsimp only at hv
        rcases hv with h | h
        · exact Relation.ReflTransGen.single (Or.inr (Or.inr (Or.inr ⟨h, rfl⟩)))
        · rw [h]
      · rw [if_neg hmem]
    · dsimp only
      exact ih b r c

/- A guarded placement only turns Empty cells into Ship cells. -/
theorem placement_evolves (b : Board) (row col size : Nat) (horizontal : Bool)
    (hcan : canPlaceShip b (row : Int) (col : Int) size horizontal = some true) :
    placementSteps b row col size horizontal := by
  intro r c
  rw [placeShip_fst_apply]
  by_cases hmem : Coordinate.mk r c ∈ (placeShipOnBoard b row col size horizontal).2
  · rw [if_pos hmem]
    have hmem2 : ∃ i, i < size ∧
        (if horizontal then Coordinate.mk row (col + i) else Coordinate.mk (row + i) col) =
          Coordinate.mk r c := by
      simpa [placeShipOnBoard, List.mem_map, List.mem_range] using hmem
    obtain ⟨i, hi, hcd⟩ := hmem2
    have hok := (canPlaceShip_some_true_iff b row col size horizontal).mp hcan i hi
    have hempty : b r c = Cell.empty := by
      cases horizontal with
      | false =>
        simp only [Bool.false_eq_true, if_false] at hcd
        have h1 : row + i = r := congrArg Coordinate.row hcd
        have h2 : col = c := congrArg Coordinate.col hcd
        simp only [cellAt, inBoundsEmpty, Bool.false_eq_true, if_false] at hok
        have ht1 : ((row : Int) + (i : Int)).toNat = row + i := by omega
        rw [ht1] at hok
        have ht2 : ((col : Int)).toNat = col := by omega
        rw [ht2] at hok
        rw [← h1, ← h2]
        exact hok.2.2.2.2
      | true =>
        simp only [if_true] at hcd
        have h1 : row = r := congrArg Coordinate.row hcd
        have h2 : col + i = c := congrArg Coordinate.col hcd
        simp only [cellAt, inBoundsEmpty, if_true] at hok
        have ht1 : ((row : Int)).toNat = row := by omega
        have ht2 : ((col : Int) + (i : Int)).toNat = col + i := by omega
        rw [ht1, ht2] at hok
        rw [← h1, ← h2]
        exact hok.2.2.2.2
    rw [hempty]
    exact Relation.ReflTransGen.single (Or.inl ⟨rfl, rfl⟩)
  · rw [if_neg hmem]
    exact Relation.ReflTransGen.refl

/- A resolved attack on a legal target only performs allowed cell
   transitions. -/
theorem attack_evolves (b : Board) (ships : List PlacedShip) (t : Coordinate)
    (hlegal : legalCell b t.row t.col = true) : attackSteps b ships t := by
  intro r c
  by_cases hship : b t.row t.col = Cell.ship
  · have hra : (resolveAttack b ships t).1 =
        (sinkPassA ships (setCell b t.row t.col Cell.hit)).2 := by
      simp [resolveAttack, hship]
    rw [hra]
    refine Relation.ReflTransGen.trans ?_
      (sinkPassA_evolves ships (setCell b t.row t.col Cell.hit) r c)
    show cellEvolves (b r c) (if r = t.row ∧ c = t.col then Cell.hit else b r c)
    by_cases hrc : r = t.row ∧ c = t.col
    · rw [if_pos hrc]
      obtain ⟨rfl, rfl⟩ := hrc
      rw [hship]
      exact Relation.ReflTransGen.single (Or.inr (Or.inl ⟨rfl, rfl⟩))
    · rw [if_neg hrc]
      exact Relation.ReflTransGen.refl
  · have hra : (resolveAttack b ships t).1 = setCell b t.row t.col Cell.miss := by
      simp [resolveAttack, hship]
    rw [hra]
    show cellEvolves (b r c) (if r = t.row ∧ c = t.col then Cell.miss else b r c)
    by_cases hrc : r = t.row ∧ c = t.col
    · rw [if_pos hrc]
      obtain ⟨rfl, rfl⟩ := hrc
      have hempty : b t.row t.col = Cell.empty := by
        rcases (legalCell_iff b t.row t.col).mp hlegal with h | h
        · exact h
        · exact absurd h hship
      rw [hempty]
      exact Relation.ReflTransGen.single (Or.inr (Or.inr (Or.inl ⟨rfl, rfl⟩)))
    · rw [if_neg hrc]
      exact Relation.ReflTransGen.refl

theorem cellStep_not_from_miss (x : Cell) : ¬ cellStep Cell.miss x := by
  rintro (⟨h, -⟩ | ⟨h, -⟩ | ⟨h, -⟩ | ⟨h, -⟩) <;> cases h

theorem cellStep_not_from_sunk (x : Cell) : ¬ cellStep Cell.sunk x := by
  rintro (⟨h, -⟩ | ⟨h, -⟩ | ⟨h, -⟩ | ⟨h, -⟩) <;> cases h

theorem cellEvolves_from_miss (x : Cell) (h : cellEvolves Cell.miss x) : x = Cell.miss := by
  rcases Relation.ReflTransGen.cases_head h with heq | ⟨y, hstep, -⟩
  · exact heq.symm
  · exact absurd hstep (cellStep_not_from_miss y)

theorem cellEvolves_from_sunk (x : Cell) (h : cellEvolves Cell.sunk x) : x = Cell.sunk := by
  rcases Relation.ReflTransGen.cases_head h with heq | ⟨y, hstep, -⟩
  · exact heq.symm
  · exact absurd hstep (cellStep_not_from_sunk y)

/-- Claim C8: a placement guarded by canPlace and a resolved attack on a
legal target make every grid cell evolve only along the allowed
transitions Empty to Ship, Ship to Hit, Empty to Miss and Hit to Sunk; in
particular Miss and Sunk cells are never changed. -/
theorem claim_C8 :
    (∀ (b : Board) (row col size : Nat) (horizontal : Bool),
      canPlaceShip b (row : Int) (col : Int) size horizontal = some true →
      placementSteps b row col size horizontal) ∧
    (∀ (b : Board) (ships : List PlacedShip) (t : Coordinate),
      legalCell b t.row t.col = true → attackSteps b ships t) ∧
    (∀ (b : Board) (ships : List PlacedShip) (t : Coordinate),
      legalCell b t.row t.col = true → terminalCells b ships t) := by
  refine ⟨placement_evolves, attack_evolves, ?_⟩
  intro b ships t hlegal
  constructor
  · intro r c hm
    have h := attack_evolves b ships t hlegal r c
    rw [hm] at h
    exact cellEvolves_from_miss _ h
  · intro r c hm
    have h := attack_evolves b ships t hlegal r c
    rw [hm] at h
    exact cellEvolves_from_sunk _ h

/-- Witness for claim C8 at a concrete guarded placement and a concrete
legal attack. -/
theorem claim_C8_witness :
    (canPlaceShip bAllEmpty (0 : Int) (0 : Int) 2 true = some true ∧
      legalCell bOneShip 0 0 = true) ∧
    placementSteps bAllEmpty 0 0 2 true ∧
    attackSteps bOneShip shipsOneDestroyer (Coordinate.mk 0 0) ∧
    terminalCells bOneShip shipsOneDestroyer (Coordinate.mk 0 0) :=
  ⟨⟨by decide, by decide⟩,
    claim_C8.1 bAllEmpty 0 0 2 true (by decide),
    claim_C8.2.1 bOneShip shipsOneDestroyer (Coordinate.mk 0 0) (by decide),
    claim_C8.2.2 bOneShip shipsOneDestroyer (Coordinate.mk 0 0) (by decide)⟩

/- popLegal finds exactly the head of the queue with its illegal prefix
   dropped. -/
theorem popLegal_eq_dropWhile (b : Board) :
    ∀ queue : List Coordinate,
      popLegal b queue =
        match queue.dropWhile (fun cd => !legalCell b cd.row cd.col) with
        | [] => none
        | c :: rest => some (c, rest) := by
  intro queue
  induction queue with
  | nil => rfl
  | cons cand rest ih =>
    by_cases hleg : legalCell b cand.row cand.col = true
    · simp [popLegal, List.dropWhile_cons, hleg]
    · have hleg2 : legalCell b cand.row cand.col = false := by
        cases h : legalCell b cand.row cand.col
        · rfl
        · exact absurd h hleg
      simp [popLegal, List.dropWhile_cons, hleg2, ih]

/-- Claim C3: whenever the defender board still has a legal cell, the
hunt-target strategy selects a target that is never a Hit, Miss or Sunk
cell: it pops the pending queue in FIFO order until the first legal
candidate and attacks it with the rest of the queue kept, and when the
queue yields no legal candidate it drains the queue and picks among the
legal cells, the pick indexed by the uniform draw. -/
/- The head surviving a dropWhile fails the dropped predicate. -/
theorem dropWhile_head_not {α : Type} (p : α → Bool) :
    ∀ (l : List α) (x : α) (xs : List α), l.dropWhile p = x :: xs → p x = false := by
  intro l
  induction l with
  | nil => intro x xs h; simp [List.dropWhile] at h
  | cons a l ih =>
    intro x xs h
    by_cases hp : p a = true
    · rw [List.dropWhile_cons, if_pos hp] at h
      exact ih x xs h
    · rw [List.dropWhile_cons, if_neg hp] at h
      injection h with h1 h2
      rw [← h1]
      cases hpa : p a
      · rfl
      · exact absurd hpa hp

/- Any member of the legal target list is a legal cell. -/
theorem legalTargets_mem_legal (b : Board) (t : Coordinate) (h : t ∈ legalTargets b) :
    legalCell b t.row t.col = true := by
  have h2 : t ∈ (((List.range BOARD_SIZE).flatMap fun r =>
      (List.range BOARD_SIZE).map fun c => Coordinate.mk r c).filter
      fun cd => legalCell b cd.row cd.col) := h
  exact (List.mem_filter.mp h2).2

theorem claim_C3 (b : Board) (queue : List Coordinate) (rand : Nat)
    (hne : legalTargets b ≠ []) : mediumSelects b queue rand := by
  unfold mediumSelects
  cases hdw : queue.dropWhile (fun cd => !legalCell b cd.row cd.col) with
  | cons c0 rest =>
    have hctm : computerTurnMedium b queue rand = some (c0, rest) := by
      unfold computerTurnMedium
      rw [popLegal_eq_dropWhile, hdw]
    have hleg : legalCell b c0.row c0.col = true := by
      have := dropWhile_head_not (fun cd => !legalCell b cd.row cd.col) queue c0 rest hdw
      simpa using this
    refine ⟨c0, rest, hctm, hleg, ?_, ?_, ?_, ?_⟩
    · rcases (legalCell_iff b c0.row c0.col).mp hleg with h | h <;> simp [h]
    · rcases (legalCell_iff b c0.row c0.col).mp hleg with h | h <;> simp [h]
    · rcases (legalCell_iff b c0.row c0.col).mp hleg with h | h <;> simp [h]
    · exact ⟨rfl, rfl⟩
  | nil =>
    have hlen : 0 < (legalTargets b).length := List.length_pos.mpr hne
    have hidx : rand % (legalTargets b).length < (legalTargets b).length :=
      Nat.mod_lt rand hlen
    have hget : (legalTargets b).get? (rand % (legalTargets b).length) =
        some ((legalTargets b).get ⟨rand % (legalTargets b).length, hidx⟩) :=
      List.get?_eq_get hidx
    set t0 := (legalTargets b).get ⟨rand % (legalTargets b).length, hidx⟩ with ht0
    have hctm : computerTurnMedium b queue rand = some (t0, []) := by
      unfold computerTurnMedium
      rw [popLegal_eq_dropWhile, hdw]
      dsimp only
      rw [hget]
    have hmem : t0 ∈ legalTargets b := List.get_mem _ _ hidx
    have hleg : legalCell b t0.row t0.col = true := legalTargets_mem_legal b t0 hmem
    refine ⟨t0, [], hctm, hleg, ?_, ?_, ?_, ?_⟩
    · rcases (legalCell_iff b t0.row t0.col).mp hleg with h | h <;> simp [h]
    · rcases (legalCell_iff b t0.row t0.col).mp hleg with h | h <;> simp [h]
    · rcases (legalCell_iff b t0.row t0.col).mp hleg with h | h <;> simp [h]
    · exact ⟨hmem, rfl⟩

/-- Witness for claim C3 on a concrete board with a stale queue entry. -/
theorem claim_C3_witness :
    (legalTargets bJustHit ≠ []) ∧
    mediumSelects bJustHit [Coordinate.mk 0 0, Coordinate.mk 0 1] 5 :=
  ⟨by decide, claim_C3 bJustHit [Coordinate.mk 0 0, Coordinate.mk 0 1] 5 (by decide)⟩

/- Folding over a flattened list equals the nested fold. -/
theorem foldl_flatMap {α β γ : Type} (l : List β) (f : β → List α) (g : γ → α → γ) :
    ∀ init : γ, (l.flatMap f).foldl g init = l.foldl (fun acc x => (f x).foldl g acc) init := by
  induction l with
  | nil => intro init; rfl
  | cons x l ih =>
    intro init
    rw [List.flatMap_cons, List.foldl_append, List.foldl_cons, ih]

/- Two folds with pointwise equal step functions agree. -/
theorem foldl_fun_congr {α β : Type} (l : List α) (f g : β → α → β)
    (h : ∀ acc x, f acc x = g acc x) : ∀ init : β, l.foldl f init = l.foldl g init := by
  induction l with
  | nil => intro init; rfl
  | cons a l ih =>
    intro init
    rw [List.foldl_cons, List.foldl_cons, h, ih]

/- The nested loops of computeProbabilityMap, flattened into one fold over
   the placement descriptors. -/
theorem computeProbabilityMap_eq_foldl (b : Board) (ships : List PlacedShip) :
    computeProbabilityMap b ships =
      (probPlacements ships).foldl
        (fun pm p => addPlacement b p.size pm p.r p.c p.horizontal) (fun _ _ => 0) := by
  unfold computeProbabilityMap probPlacements
  rw [foldl_flatMap]
  refine foldl_fun_congr _ _ _ ?_ _
  intro pm s
  rw [foldl_flatMap]
  refine foldl_fun_congr _ _ _ ?_ _
  intro pm2 r
  rw [foldl_flatMap]
  refine foldl_fun_congr _ _ _ ?_ _
  intro pm3 c
  rw [List.foldl_map]

theorem mem_probPlacements (ships : List PlacedShip) (p : PlacePos) :
    p ∈ probPlacements ships ↔
      ∃ s ∈ ships, s.sunk = false ∧ p.size = s.size ∧ p.r < BOARD_SIZE ∧ p.c < BOARD_SIZE := by
  obtain ⟨size, r, c, horizontal⟩ := p
  unfold probPlacements
  simp only [List.mem_flatMap, List.mem_filter, List.mem_map, List.mem_range,
    Bool.not_eq_true']
  constructor
  · rintro ⟨s, ⟨hs, hsunk⟩, r0, hr0, c0, hc0, h0, hh0, heq⟩
    have h1 : size = s.size := (congrArg PlacePos.size heq).symm
    have h2 : r0 = r := congrArg PlacePos.r heq
    have h3 : c0 = c := congrArg PlacePos.c heq
    exact ⟨s, hs, hsunk, h1, by rw [← h2]; exact hr0, by rw [← h3]; exact hc0⟩
  · rintro ⟨s, hs, hsunk, h1, h2, h3⟩
    refine ⟨s, ⟨hs, hsunk⟩, r, h2, c, h3, horizontal, ?_, ?_⟩
    · cases horizontal <;> simp
    · rw [h1]

theorem placementCells_nodup (r c size : Nat) (horizontal : Bool) :
    (placementCells r c size horizontal).Nodup := by
  unfold placementCells
  refine List.Nodup.map ?_ (List.nodup_range size)
  intro a1 a2 h
  cases horizontal
  · simp only [Bool.false_eq_true, if_false, Coordinate.mk.injEq] at h
    omega
  · simp only [if_true, Coordinate.mk.injEq] at h
    omega

theorem foldl_bump_apply (b : Board) (w : Nat) :
    ∀ (l : List Coordinate), l.Nodup → ∀ (pm : ProbMap) (r c : Nat),
      (l.foldl (fun m cd => if legalCell b cd.row cd.col then probBump m cd w else m) pm) r c =
        pm r c + (if Coordinate.mk r c ∈ l ∧ legalCell b r c = true then w else 0) := by
  intro l
  induction l with
  | nil => intro _ pm r c; simp
  | cons cd rest ih =>
    intro hnd pm r c
    have hnd2 : rest.Nodup := (List.nodup_cons.mp hnd).2
    have hcdnot : cd ∉ rest := (List.nodup_cons.mp hnd).1
    rw [List.foldl_cons, ih hnd2]
    by_cases hleg : legalCell b cd.row cd.col = true
    · rw [if_pos hleg]
      by_cases heq : Coordinate.mk r c = cd
      · have hrow : r = cd.row := congrArg Coordinate.row heq
        have hcol : c = cd.col := congrArg Coordinate.col heq
        have hnotmem : Coordinate.mk r c ∉ rest := by rw [heq]; exact hcdnot
        have hlegrc : legalCell b r c = true := by rw [hrow, hcol]; exact hleg
        rw [if_neg (fun hcj => hnotmem hcj.1)]
        show (if r = cd.row ∧ c = cd.col then pm r c + w else pm r c) + 0 =
          pm r c + (if Coordinate.mk r c ∈ cd :: rest ∧ legalCell b r c = true then w else 0)
        rw [if_pos ⟨hrow, hcol⟩, if_pos ⟨List.mem_cons.mpr (Or.inl heq), hlegrc⟩]
        omega
      · have hrc : ¬(r = cd.row ∧ c = cd.col) := by
          rintro ⟨h1, h2⟩
          apply heq
          cases cd
          simp only at h1 h2
          rw [h1, h2]
        show (if r = cd.row ∧ c = cd.col then pm r c + w else pm r c) + _ = pm r c + _
        rw [if_neg hrc]
        congr 1
        refine if_congr ?_ rfl rfl
        constructor
        · rintro ⟨hm, hl⟩
          exact ⟨List.mem_cons_of_mem _ hm, hl⟩
        · rintro ⟨hm, hl⟩
          rcases List.mem_cons.mp hm with h | h
          · exact absurd h heq
          · exact ⟨h, hl⟩
    · rw [if_neg hleg]
      congr 1
      refine if_congr ?_ rfl rfl
      constructor
      · rintro ⟨hm, hl⟩
        exact ⟨List.mem_cons_of_mem _ hm, hl⟩
      · rintro ⟨hm, hl⟩
        rcases List.mem_cons.mp hm with h | h
        · exfalso
          apply hleg
          have hrow : cd.row = r := (congrArg Coordinate.row h).symm
          have hcol : cd.col = c := (congrArg Coordinate.col h).symm
          rw [hrow, hcol]
          exact hl
        · exact ⟨h, hl⟩

theorem addPlacement_apply (b : Board) (p : PlacePos) (pm : ProbMap) (r c : Nat) :
    addPlacement b p.size pm p.r p.c p.horizontal r c =
      pm r c + probContrib b p r c := by
  obtain ⟨size, r0, c0, horizontal⟩ := p
  unfold addPlacement probContrib
  dsimp only
  by_cases hv : placementValid b r0 c0 size horizontal = true
  · rw [if_pos hv,
      foldl_bump_apply b _ (placementCells r0 c0 size horizontal)
        (placementCells_nodup r0 c0 size horizontal) pm r c]
    congr 1
    refine if_congr ?_ rfl rfl
    constructor
    · rintro ⟨hm, hl⟩
      exact ⟨hv, hm, hl⟩
    · rintro ⟨-, hm, hl⟩
      exact ⟨hm, hl⟩
  · rw [if_neg hv, if_neg (fun hcj => hv hcj.1)]
    simp

theorem probFold_apply (b : Board) :
    ∀ (l : List PlacePos) (pm : ProbMap) (r c : Nat),
      (l.foldl (fun pm p => addPlacement b p.size pm p.r p.c p.horizontal) pm) r c =
        pm r c + ((l.map fun p => probContrib b p r c).sum) := by
  intro l
  induction l with
  | nil => intro pm r c; simp
  | cons p rest ih =>
    intro pm r c
    rw [List.foldl_cons, ih, addPlacement_apply, List.map_cons, List.sum_cons]
    omega

/- The accumulator value computeProbabilityMap leaves at cell (r, c): the
   sum of the contributions of every placement descriptor. -/
theorem computeProbabilityMap_apply (b : Board) (ships : List PlacedShip) (r c : Nat) :
    computeProbabilityMap b ships r c =
      ((probPlacements ships).map fun p => probContrib b p r c).sum := by
  rw [computeProbabilityMap_eq_foldl, probFold_apply]
  omega

theorem placementValid_iff (b : Board) (r0 c0 size : Nat) (horizontal : Bool) :
    placementValid b r0 c0 size horizontal = true ↔
      ∀ cd ∈ placementCells r0 c0 size horizontal,
        cd.row < BOARD_SIZE ∧ cd.col < BOARD_SIZE ∧
          b cd.row cd.col ≠ Cell.miss ∧ b cd.row cd.col ≠ Cell.sunk := by
  unfold placementValid
  rw [List.all_eq_true]
  constructor
  · intro h cd hcd
    have := h cd hcd
    simp only [Bool.and_eq_true, decide_eq_true_eq, Bool.not_eq_true', beq_eq_false_iff_ne,
      ne_eq] at this
    exact ⟨this.1.1.1, this.1.1.2, this.1.2, this.2⟩
  · intro h cd hcd
    have := h cd hcd
    simp only [Bool.and_eq_true, decide_eq_true_eq, Bool.not_eq_true', beq_eq_false_iff_ne,
      ne_eq]
    exact ⟨⟨⟨this.1, this.2.1⟩, this.2.2.1⟩, this.2.2.2⟩

theorem probContrib_eq_zero_iff (b : Board) (p : PlacePos) (r c : Nat) :
    probContrib b p r c = 0 ↔
      ¬(placementValid b p.r p.c p.size p.horizontal = true ∧
        Coordinate.mk r c ∈ placementCells p.r p.c p.size p.horizontal ∧
        legalCell b r c = true) := by
  unfold probContrib
  split_ifs with h h2
  · exact iff_of_false (by norm_num) fun hn => hn h
  · exact iff_of_false (by norm_num) fun hn => hn h
  · exact iff_of_true rfl h

/- On a legal cell the accumulator of the source agrees with the spec
   side accumulator (which adds the weight to every cell of a consistent
   placement, legal or not). -/
theorem specWeight_eq_probAt (b : Board) (ships : List PlacedShip) (r c : Nat)
    (hleg : legalCell b r c = true) :
    specWeight b ships r c = computeProbabilityMap b ships r c := by
  rw [computeProbabilityMap_apply]
  unfold specWeight
  congr 1
  apply List.map_congr_left
  intro p hp
  unfold probContrib
  by_cases h : placementValid b p.r p.c p.size p.horizontal = true ∧
      Coordinate.mk r c ∈ placementCells p.r p.c p.size p.horizontal
  · have hcond : placementValid b p.r p.c p.size p.horizontal = true ∧
        Coordinate.mk r c ∈ placementCells p.r p.c p.size p.horizontal ∧
        legalCell b r c = true := ⟨h.1, h.2, hleg⟩
    rw [if_pos h, if_pos hcond]
  · have hcond : ¬(placementValid b p.r p.c p.size p.horizontal = true ∧
        Coordinate.mk r c ∈ placementCells p.r p.c p.size p.horizontal ∧
        legalCell b r c = true) := fun hc => h ⟨hc.1, hc.2.1⟩
    rw [if_neg h, if_neg hcond]

/-- Claim C4 (amended): a legal (Empty or Occupied) cell gets accumulated
weight 0 exactly when no surviving ship admits a placement through it that
stays on the board and avoids every Miss and Sunk cell; a cell that is not
a legal target (in particular a Hit cell) always keeps weight 0, whether
or not placements run through it. -/
theorem claim_C4 (b : Board) (ships : List PlacedShip) (r c : Nat)
    (hr : r < BOARD_SIZE) (hc : c < BOARD_SIZE) :
    (legalCell b r c = true →
      (computeProbabilityMap b ships r c = 0 ↔ ¬ specAdmitsPlacement b ships r c)) ∧
    (legalCell b r c = false → computeProbabilityMap b ships r c = 0) := by
  constructor
  · intro hleg
    rw [computeProbabilityMap_apply, List.sum_eq_zero_iff]
    constructor
    · intro hall hadm
      obtain ⟨s, hs, hsunk, r0, c0, horiz, hvalid, hthru⟩ := hadm
      have hval : placementValid b r0 c0 s.size horiz = true :=
        (placementValid_iff b r0 c0 s.size horiz).mpr hvalid
      have hsz : s.size ≠ 0 := by
        intro h0
        rw [h0] at hthru
        simp [placementCells] at hthru
      have hanchor : Coordinate.mk r0 c0 ∈ placementCells r0 c0 s.size horiz := by
        refine List.mem_map.mpr ⟨0, List.mem_range.mpr (Nat.pos_of_ne_zero hsz), ?_⟩
        cases horiz <;> simp
      have hb := hvalid (Coordinate.mk r0 c0) hanchor
      have hp : PlacePos.mk s.size r0 c0 horiz ∈ probPlacements ships :=
        (mem_probPlacements ships (PlacePos.mk s.size r0 c0 horiz)).mpr
          ⟨s, hs, hsunk, rfl, hb.1, hb.2.1⟩
      have h0 := hall (probContrib b (PlacePos.mk s.size r0 c0 horiz) r c)
        (List.mem_map_of_mem _ hp)
      exact (probContrib_eq_zero_iff b (PlacePos.mk s.size r0 c0 horiz) r c).mp h0
        ⟨hval, hthru, hleg⟩
    · intro hnadm x hx
      obtain ⟨p, hp, rfl⟩ := List.mem_map.mp hx
      rw [probContrib_eq_zero_iff]
      rintro ⟨hval, hmem, -⟩
      apply hnadm
      obtain ⟨s, hs, hsunk, hsize, hr0, hc0⟩ := (mem_probPlacements ships p).mp hp
      refine ⟨s, hs, hsunk, p.r, p.c, p.horizontal, ?_, ?_⟩
      · rw [← hsize]
        exact (placementValid_iff b p.r p.c p.size p.horizontal).mp hval
      · rw [← hsize]
        exact hmem
  · intro hleg
    rw [computeProbabilityMap_apply]
    apply List.sum_eq_zero
    intro x hx
    obtain ⟨p, hp, rfl⟩ := List.mem_map.mp hx
    rw [probContrib_eq_zero_iff]
    rintro ⟨-, -, hl⟩
    rw [hleg] at hl
    cases hl

set_option maxRecDepth 8000 in
/-- Counterexample to claim C4 as stated: with one surviving destroyer
and a single Hit at (0,0), a length 2 placement through (0,0) avoids
every Miss and Sunk cell, yet the accumulator of the Hit cell (0,0) is 0,
because the source only adds weight to Empty or Occupied cells. -/
theorem claim_C4_cx :
    bJustHit 0 0 = Cell.hit ∧
    computeProbabilityMap bJustHit shipsOneDestroyer 0 0 = 0 ∧
    specAdmitsPlacement bJustHit shipsOneDestroyer 0 0 := by
  refine ⟨rfl, by decide, ?_⟩
  refine ⟨PlacedShip.mk "Destroyer" 2 [Coordinate.mk 9 8, Coordinate.mk 9 9] false,
    by decide, rfl, 0, 0, true, by decide, by decide⟩

/-- Witness for the amended claim C4 at the concrete Hit board: the legal
cell (0,1) has positive weight, shown through the equivalence since the
destroyer runs through it. -/
theorem claim_C4_witness :
    (0 < BOARD_SIZE ∧ 1 < BOARD_SIZE) ∧
    ((legalCell bJustHit 0 1 = true →
      (computeProbabilityMap bJustHit shipsOneDestroyer 0 1 = 0 ↔
        ¬ specAdmitsPlacement bJustHit shipsOneDestroyer 0 1)) ∧
    (legalCell bJustHit 0 1 = false →
      computeProbabilityMap bJustHit shipsOneDestroyer 0 1 = 0)) :=
  ⟨⟨by decide, by decide⟩, claim_C4 bJustHit shipsOneDestroyer 0 1 (by decide) (by decide)⟩

theorem le_foldl_hardMax (pm : ProbMap) :
    ∀ (l : List Coordinate) (m : Int), m ≤ l.foldl (hardMax pm) m := by
  intro l
  induction l with
  | nil => intro m; exact le_refl m
  | cons t l ih =>
    intro m
    rw [List.foldl_cons]
    exact le_trans (le_max_left m ((pm t.row t.col : Nat) : Int)) (ih (hardMax pm m t))

theorem foldl_hardMax_ge (pm : ProbMap) :
    ∀ (l : List Coordinate) (m : Int) (x : Coordinate), x ∈ l →
      ((pm x.row x.col : Nat) : Int) ≤ l.foldl (hardMax pm) m := by
  intro l
  induction l with
  | nil => intro m x hx; exact absurd hx (List.not_mem_nil x)
  | cons t l ih =>
    intro m x hx
    rw [List.foldl_cons]
    rcases List.mem_cons.mp hx with rfl | hmem
    · exact le_trans (le_max_right m _) (le_foldl_hardMax pm l _)
    · exact ih _ x hmem

theorem foldl_hardMax_attained (pm : ProbMap) :
    ∀ (l : List Coordinate) (m : Int),
      l.foldl (hardMax pm) m = m ∨
        ∃ x ∈ l, l.foldl (hardMax pm) m = ((pm x.row x.col : Nat) : Int) := by
  intro l
  induction l with
  | nil => intro m; exact Or.inl rfl
  | cons t l ih =>
    intro m
    rw [List.foldl_cons]
    rcases ih (hardMax pm m t) with h | ⟨x, hx, hval⟩
    · rcases max_choice m ((pm t.row t.col : Nat) : Int) with hm | hm
      · left
        rw [h]
        exact hm
      · right
        exact ⟨t, List.mem_cons_self t l, by rw [h]; exact hm⟩
    · right
      exact ⟨x, List.mem_cons_of_mem t hx, hval⟩

/- Full description of the maxProb/candidates scan: the first component
   is the running maximum, the second the in order list of scanned cells
   attaining it (the initial candidates survive only when nothing beats
   the initial maximum). -/
theorem hardScan_spec (pm : ProbMap) :
    ∀ (l : List Coordinate) (m : Int) (cs : List Coordinate),
      l.foldl (hardScanStep pm) (m, cs) =
        (l.foldl (hardMax pm) m,
          if l.foldl (hardMax pm) m = m then
            cs ++ l.filter (fun t => decide (((pm t.row t.col : Nat) : Int) = m))
          else l.filter fun t =>
            decide (((pm t.row t.col : Nat) : Int) = l.foldl (hardMax pm) m)) := by
  intro l
  induction l with
  | nil =>
    intro m cs
    simp
  | cons t l ih =>
    intro m cs
    rw [List.foldl_cons, List.foldl_cons]
    by_cases h1 : m < ((pm t.row t.col : Nat) : Int)
    · have hstep : hardScanStep pm (m, cs) t =
          (((pm t.row t.col : Nat) : Int), [t]) := by
        unfold hardScanStep
        rw [if_pos h1]
      have hmaxt : hardMax pm m t = ((pm t.row t.col : Nat) : Int) :=
        max_eq_right (le_of_lt h1)
      rw [hstep, hmaxt, ih]
      have hMge : ((pm t.row t.col : Nat) : Int) ≤
          l.foldl (hardMax pm) ((pm t.row t.col : Nat) : Int) :=
        le_foldl_hardMax pm l _
      have hMne : l.foldl (hardMax pm) ((pm t.row t.col : Nat) : Int) ≠ m := by
        intro he
        rw [he] at hMge
        exact absurd h1 (not_lt.mpr hMge)
      rw [if_neg hMne]
      by_cases hMf : l.foldl (hardMax pm) ((pm t.row t.col : Nat) : Int) =
          ((pm t.row t.col : Nat) : Int)
      · rw [if_pos hMf, List.filter_cons]
        have hdec : decide (((pm t.row t.col : Nat) : Int) =
            l.foldl (hardMax pm) ((pm t.row t.col : Nat) : Int)) = true := by
          rw [hMf]
          exact decide_eq_true rfl
        rw [hdec]
        congr 1
        rw [hMf]
        simp
      · rw [if_neg hMf, List.filter_cons]
        have hdec : decide (((pm t.row t.col : Nat) : Int) =
            l.foldl (hardMax pm) ((pm t.row t.col : Nat) : Int)) = false := by
          refine decide_eq_false ?_
          intro he
          exact hMf he.symm
        rw [hdec]
        simp
    · by_cases h2 : ((pm t.row t.col : Nat) : Int) = m
      · have hstep : hardScanStep pm (m, cs) t = (m, cs ++ [t]) := by
          unfold hardScanStep
          rw [if_neg h1, if_pos h2]
        have hmaxt : hardMax pm m t = m :=
          max_eq_left (le_of_eq h2)
        rw [hstep, hmaxt, ih]
        have hMge : m ≤ l.foldl (hardMax pm) m := le_foldl_hardMax pm l m
        by_cases hMm : l.foldl (hardMax pm) m = m
        · rw [if_pos hMm, if_pos hMm, List.filter_cons]
          have hdec : decide (((pm t.row t.col : Nat) : Int) = m) = true :=
            decide_eq_true h2
          rw [hdec]
          congr 1
          rw [List.append_assoc]
          rfl
        · rw [if_neg hMm, if_neg hMm, List.filter_cons]
          have hdec : decide (((pm t.row t.col : Nat) : Int) =
              l.foldl (hardMax pm) m) = false := by
            refine decide_eq_false ?_
            intro he
            apply hMm
            rw [← he]
            exact h2
          rw [hdec]
          simp
      · have hstep : hardScanStep pm (m, cs) t = (m, cs) := by
          unfold hardScanStep
          rw [if_neg h1, if_neg h2]
        have hmaxt : hardMax pm m t = m :=
          max_eq_left (le_of_not_lt h1)
        rw [hstep, hmaxt, ih]
        have hMge : m ≤ l.foldl (hardMax pm) m := le_foldl_hardMax pm l m
        by_cases hMm : l.foldl (hardMax pm) m = m
        · rw [if_pos hMm, if_pos hMm, List.filter_cons]
          have hdec : decide (((pm t.row t.col : Nat) : Int) = m) = false :=
            decide_eq_false h2
          rw [hdec]
          simp
        · rw [if_neg hMm, if_neg hMm, List.filter_cons]
          have hdec : decide (((pm t.row t.col : Nat) : Int) =
              l.foldl (hardMax pm) m) = false := by
            refine decide_eq_false ?_
            intro he
            apply h2
            have h3 : ((pm t.row t.col : Nat) : Int) ≤ m := le_of_not_lt h1
            have h4 : m ≤ ((pm t.row t.col : Nat) : Int) := by
              rw [he]
              exact hMge
            exact le_antisymm h3 h4
          rw [hdec]
          simp

/-- Claim C5: whenever a legal cell exists, the probability density
strategy accumulates, for each consistent placement of each surviving
ship, weight 1 (no Hit aboard) or 20 (some Hit aboard) on its cells, and
then returns a legal cell whose accumulated weight (in the spec side
accumulator) is maximal among all legal cells, the tie broken by the
uniform draw indexing into the row major list of all legal cells sharing
the maximum. -/
theorem claim_C5 (b : Board) (ships : List PlacedShip) (rand : Nat)
    (hne : legalTargets b ≠ []) : hardSelects b ships rand := by
  unfold hardSelects
  set pm := computeProbabilityMap b ships with hpm
  set lt := legalTargets b with hlt
  set M := lt.foldl (hardMax pm) (-1) with hMdef
  have hscan := hardScan_spec pm lt (-1) []
  obtain ⟨t1, ht1⟩ := List.exists_mem_of_ne_nil lt hne
  have hge1 : ((pm t1.row t1.col : Nat) : Int) ≤ M := foldl_hardMax_ge pm lt (-1) t1 ht1
  have hMne : M ≠ (-1 : Int) := by
    intro he
    rw [he] at hge1
    have h0 : (0 : Int) ≤ ((pm t1.row t1.col : Nat) : Int) := Int.natCast_nonneg _
    omega
  rw [if_neg hMne] at hscan
  set cands := lt.filter (fun t => decide (((pm t.row t.col : Nat) : Int) = M)) with hcands
  have hx : ∃ x ∈ lt, M = ((pm x.row x.col : Nat) : Int) := by
    rcases foldl_hardMax_attained pm lt (-1) with h | h
    · exact absurd h hMne
    · exact h
  obtain ⟨x0, hx0, hxv⟩ := hx
  have hx0c : x0 ∈ cands := by
    rw [hcands]
    refine List.mem_filter.mpr ⟨hx0, ?_⟩
    simp [hxv]
  have hlen : 0 < cands.length := List.length_pos.mpr (List.ne_nil_of_mem hx0c)
  have hidx : rand % cands.length < cands.length := Nat.mod_lt rand hlen
  set t0 := cands.get ⟨rand % cands.length, hidx⟩ with ht0
  have ht0mem : t0 ∈ cands := List.get_mem _ _ hidx
  have ht0lt : t0 ∈ lt := (List.mem_filter.mp ht0mem).1
  have ht0v : ((pm t0.row t0.col : Nat) : Int) = M := by
    have := (List.mem_filter.mp ht0mem).2
    simpa using this
  have hleg0 : legalCell b t0.row t0.col = true := legalTargets_mem_legal b t0 ht0lt
  have hhard : computerTurnHard b ships rand = some t0 := by
    unfold computerTurnHard
    rw [← hpm, ← hlt]
    dsimp only
    rw [hscan]
    dsimp only
    rw [List.get?_eq_get hidx]
  have hmaxN : ∀ u ∈ lt, specWeight b ships u.row u.col ≤ specWeight b ships t0.row t0.col := by
    intro u hu
    have hlegu := legalTargets_mem_legal b u hu
    have h1 : ((pm u.row u.col : Nat) : Int) ≤ M := foldl_hardMax_ge pm lt (-1) u hu
    rw [← ht0v] at h1
    have h2 : pm u.row u.col ≤ pm t0.row t0.col := by exact_mod_cast h1
    rw [specWeight_eq_probAt b ships u.row u.col hlegu,
      specWeight_eq_probAt b ships t0.row t0.col hleg0, ← hpm]
    exact h2
  have hfeq : (lt.filter fun u =>
      specWeight b ships u.row u.col = specWeight b ships t0.row t0.col) = cands := by
    rw [hcands]
    apply List.filter_congr
    intro u hu
    have hlegu := legalTargets_mem_legal b u hu
    apply decide_eq_decide.mpr
    rw [specWeight_eq_probAt b ships u.row u.col hlegu,
      specWeight_eq_probAt b ships t0.row t0.col hleg0, ← hpm, ← ht0v]
    exact (Nat.cast_inj (R := Int)).symm
  refine ⟨t0, hhard, hleg0, hmaxN, ?_⟩
  rw [hfeq, List.get?_eq_get hidx]

/-- Witness for claim C5 on the concrete board with one Hit and one
surviving destroyer. -/
theorem claim_C5_witness :
    (legalTargets bJustHit ≠ []) ∧ hardSelects bJustHit shipsOneDestroyer 3 :=
  ⟨by decide, claim_C5 bJustHit shipsOneDestroyer 3 (by decide)⟩

/- Boolean any over a list only depends on the predicate values on the
   members. -/
theorem anyCongr {α : Type} (l : List α) (p q : α → Bool) (h : ∀ x ∈ l, p x = q x) :
    l.any p = l.any q := by
  induction l with
  | nil => rfl
  | cons a rest ih =>
    simp only [List.any_cons]
    rw [h a (List.mem_cons_self a rest), ih fun x hx => h x (List.mem_cons_of_mem a hx)]

theorem obsEquiv_legalCell (b1 b2 : Board) (h : obsEquiv b1 b2) (r c : Nat) :
    legalCell b1 r c = legalCell b2 r c := by
  rcases h r c with he | ⟨h1, h2⟩
  · unfold legalCell
    rw [he]
  · rw [(legalCell_iff b1 r c).mpr h1, (legalCell_iff b2 r c).mpr h2]

theorem obsEquiv_hitTest (b1 b2 : Board) (h : obsEquiv b1 b2) (r c : Nat) :
    (b1 r c == Cell.hit) = (b2 r c == Cell.hit) := by
  rcases h r c with he | ⟨h1, h2⟩
  · rw [he]
  · rcases h1 with h1 | h1 <;> rcases h2 with h2 | h2 <;> simp [h1, h2]

theorem obsEquiv_missTest (b1 b2 : Board) (h : obsEquiv b1 b2) (r c : Nat) :
    (b1 r c == Cell.miss) = (b2 r c == Cell.miss) := by
  rcases h r c with he | ⟨h1, h2⟩
  · rw [he]
  · rcases h1 with h1 | h1 <;> rcases h2 with h2 | h2 <;> simp [h1, h2]

theorem obsEquiv_sunkTest (b1 b2 : Board) (h : obsEquiv b1 b2) (r c : Nat) :
    (b1 r c == Cell.sunk) = (b2 r c == Cell.sunk) := by
  rcases h r c with he | ⟨h1, h2⟩
  · rw [he]
  · rcases h1 with h1 | h1 <;> rcases h2 with h2 | h2 <;> simp [h1, h2]

theorem obsEquiv_legalTargets (b1 b2 : Board) (h : obsEquiv b1 b2) :
    legalTargets b1 = legalTargets b2 := by
  unfold legalTargets
  apply List.filter_congr
  intro cd hcd
  exact obsEquiv_legalCell b1 b2 h cd.row cd.col

theorem obsEquiv_popLegal (b1 b2 : Board) (h : obsEquiv b1 b2) :
    ∀ queue : List Coordinate, popLegal b1 queue = popLegal b2 queue := by
  intro queue
  induction queue with
  | nil => rfl
  | cons cand rest ih =>
    unfold popLegal
    rw [obsEquiv_legalCell b1 b2 h cand.row cand.col, ih]

theorem obsEquiv_placementValid (b1 b2 : Board) (h : obsEquiv b1 b2)
    (r0 c0 size : Nat) (horizontal : Bool) :
    placementValid b1 r0 c0 size horizontal = placementValid b2 r0 c0 size horizontal := by
  unfold placementValid
  apply allCongr
  intro cd hcd
  rw [obsEquiv_missTest b1 b2 h cd.row cd.col, obsEquiv_sunkTest b1 b2 h cd.row cd.col]

theorem obsEquiv_addPlacement (b1 b2 : Board) (h : obsEquiv b1 b2)
    (size : Nat) (pm : ProbMap) (r0 c0 : Nat) (horizontal : Bool) :
    addPlacement b1 size pm r0 c0 horizontal = addPlacement b2 size pm r0 c0 horizontal := by
  unfold addPlacement
  rw [obsEquiv_placementValid b1 b2 h r0 c0 size horizontal]
  by_cases hv : placementValid b2 r0 c0 size horizontal = true
  · rw [if_pos hv, if_pos hv]
    dsimp only
    rw [anyCongr (placementCells r0 c0 size horizontal) _ _
      fun cd _ => obsEquiv_hitTest b1 b2 h cd.row cd.col]
    refine foldl_fun_congr _ _ _ ?_ pm
    intro m cd
    rw [obsEquiv_legalCell b1 b2 h cd.row cd.col]
  · rw [if_neg hv, if_neg hv]

theorem obsEquiv_probMap (b1 b2 : Board) (h : obsEquiv b1 b2) (ships : List PlacedShip) :
    computeProbabilityMap b1 ships = computeProbabilityMap b2 ships := by
  rw [computeProbabilityMap_eq_foldl, computeProbabilityMap_eq_foldl]
  refine foldl_fun_congr _ _ _ ?_ _
  intro pm p
  rw [obsEquiv_addPlacement b1 b2 h p.size pm p.r p.c p.horizontal]

/-- Claim C9: two defender boards that agree on every resolved (Hit,
Miss, Sunk) cell and differ only by swapping unresolved Occupied cells
with Empty cells produce the same selection for each of the three
strategies at every random draw, hence the same distribution: the
strategies cannot distinguish an unhit ship cell from an empty cell. -/
theorem claim_C9 (b1 b2 : Board) (h : obsEquiv b1 b2) (queue : List Coordinate)
    (ships : List PlacedShip) (rand : Nat) :
    computerTurnEasy b1 rand = computerTurnEasy b2 rand ∧
    computerTurnMedium b1 queue rand = computerTurnMedium b2 queue rand ∧
    computerTurnHard b1 ships rand = computerTurnHard b2 ships rand := by
  refine ⟨?_, ?_, ?_⟩
  · unfold computerTurnEasy
    rw [obsEquiv_legalTargets b1 b2 h]
  · unfold computerTurnMedium
    rw [obsEquiv_popLegal b1 b2 h queue, obsEquiv_legalTargets b1 b2 h]
  · unfold computerTurnHard
    rw [obsEquiv_probMap b1 b2 h ships, obsEquiv_legalTargets b1 b2 h]

/- The two concrete witness boards differ exactly by one unresolved ship
   cell swapped with an empty cell. -/
theorem obsEquiv_oneShip_empty : obsEquiv bOneShip bAllEmpty := by
  intro r c
  by_cases hrc : r = 0 ∧ c = 0
  · right
    refine ⟨Or.inr ?_, Or.inl rfl⟩
    simp [bOneShip, hrc]
  · left
    simp [bOneShip, bAllEmpty, hrc]

/-- Witness for claim C9 on a board with one hidden ship cell versus the
fully empty board. -/
theorem claim_C9_witness :
    obsEquiv bOneShip bAllEmpty ∧
    (computerTurnEasy bOneShip 7 = computerTurnEasy bAllEmpty 7 ∧
      computerTurnMedium bOneShip [] 7 = computerTurnMedium bAllEmpty [] 7 ∧
      computerTurnHard bOneShip [] 7 = computerTurnHard bAllEmpty [] 7) :=
  ⟨obsEquiv_oneShip_empty,
    claim_C9 bOneShip bAllEmpty obsEquiv_oneShip_empty [] [] 7⟩

end Battleship
